import Mathlib

/-!
Verification of the ambiguity-resolution and deduplication core of the
Korean-Novel-Glossary-Maker repository, as a shallow embedding in Lean.

Python strings are sequences of Unicode code points, modelled as `List Char`.
Term records are Python dicts whose keys may be present or absent; each
relevant key becomes an `Option`-valued field.  Code that can raise an
exception is modelled with `Option` results (`none` = the exception path).
-/

namespace GlossaryMaker

/-- Python strings are sequences of code points; we model them as lists of characters. -/
abbrev Str := List Char

/-- The code points of a Lean string literal, used to transcribe string constants
from the source verbatim. -/
def chars (s : String) : Str := s.data

/-- Whitespace test modelling Python's default whitespace class (ASCII range):
space, tab, newline, carriage return, vertical tab, form feed. -/
def isSpace (c : Char) : Bool :=
  c = ' ' || c = '\t' || c = '\n' || c = '\r' || c = Char.ofNat 11 || c = Char.ofNat 12

/-- Python str.strip with no arguments: remove leading and trailing whitespace. -/
def pyStrip (s : Str) : Str :=
  ((s.dropWhile isSpace).reverse.dropWhile isSpace).reverse

/-- A glossary term record: a Python dict in the source.  `none` models an absent key. -/
structure Noun where
  hangul : Option Str := none
  hanja : Option Str := none
  english : Option Str := none
  category : Option Str := none
  frequency : Option Int := none
  ambiguous : Option Bool := none
deriving DecidableEq

/-! ## Glossary Merge Engine: glossary_merger.merge_glossary_with_master_nouns -/

/-- The CATEGORY_MAPPING table of glossary_merger.py read through dict.get with
default value misc (the same table appears as category_map in
text_processing.merge_localglossary_with_masternoun). -/
def CATEGORY_MAPPING (c : Str) : Str :=
  if c = chars "NAME" then chars "character names"
  else if c = chars "SKILL" then chars "skills and techniques"
  else if c = chars "TITLE" then chars "character titles"
  else if c = chars "ORGANIZATION" then chars "locations and organizations"
  else if c = chars "ITEM" then chars "item names"
  else if c = chars "MISC" then chars "misc"
  else chars "misc"

/-- noun.get('hangul', ''): the merge key of a record. -/
def nounKey (n : Noun) : Str := n.hangul.getD []

/-- A copy of a new entry with its category mapped:
mapped_noun['category'] = CATEGORY_MAPPING.get(mapped_noun.get('category', 'MISC'), 'misc'). -/
def mapNewNoun (n : Noun) : Noun :=
  { n with category := some (CATEGORY_MAPPING (n.category.getD (chars "MISC"))) }

/-- The `for new_noun in new_glossary` loop of merge_glossary_with_master_nouns:
append the category-mapped copy of every candidate whose hangul key is not in the
master lookup.  The lookup is built once from the master list and never extended
while candidates are processed. -/
def processNewEntries (masterKeys : List Str) : List Noun → List Noun
  | [] => []
  | n :: rest =>
    if nounKey n ∈ masterKeys then processNewEntries masterKeys rest
    else mapNewNoun n :: processNewEntries masterKeys rest

/-- glossary_merger.merge_glossary_with_master_nouns.  A `None` master list argument
behaves exactly like the empty list (both are falsy), so the optional argument is
modelled as a plain list. -/
def merge_glossary_with_master_nouns (new_glossary master_nouns : List Noun) : List Noun :=
  if master_nouns.isEmpty then new_glossary.map mapNewNoun
  else if new_glossary.isEmpty then master_nouns
  else master_nouns ++ processNewEntries (master_nouns.map nounKey) new_glossary

/-! ### Helper lemmas about the merge loop -/

theorem mapNewNoun_hangul (n : Noun) : (mapNewNoun n).hangul = n.hangul := rfl

theorem nounKey_mapNewNoun (n : Noun) : nounKey (mapNewNoun n) = nounKey n := rfl

theorem processNewEntries_eq (masterKeys : List Str) (l : List Noun) :
    processNewEntries masterKeys l
      = (l.filter (fun n => nounKey n ∉ masterKeys)).map mapNewNoun := by
  induction l with
  | nil => rfl
  | cons n rest ih =>
    by_cases h : nounKey n ∈ masterKeys <;>
      simp [processNewEntries, h, ih, List.filter_cons]

theorem processNewEntries_nil_of_all_mem (masterKeys : List Str) (l : List Noun)
    (h : ∀ n ∈ l, nounKey n ∈ masterKeys) : processNewEntries masterKeys l = [] := by
  induction l with
  | nil => rfl
  | cons n rest ih =>
    simp only [processNewEntries, if_pos (h n (List.mem_cons_self n rest))]
    exact ih fun m hm => h m (List.mem_cons_of_mem n hm)

theorem key_mem_processNewEntries (masterKeys : List Str) (l : List Noun) (n : Noun)
    (hn : n ∈ l) (hk : nounKey n ∉ masterKeys) :
    nounKey n ∈ (processNewEntries masterKeys l).map nounKey := by
  induction l with
  | nil => cases hn
  | cons m rest ih =>
    rcases List.mem_cons.mp hn with h | h
    · subst h
      simp [processNewEntries, if_neg hk, nounKey_mapNewNoun]
    · by_cases hm : nounKey m ∈ masterKeys
      · simpa [processNewEntries, if_pos hm] using ih h
      · simp only [processNewEntries, if_neg hm, List.map_cons, List.mem_cons]
        exact Or.inr (ih h)

/-- C4 — Merge idempotence: merging the same candidate list a second time into the
result of a first merge changes nothing: record count, record order and every field
value are stable.  (Claim "merge(merge(M, C), C) equals merge(M, C)" with the
Python argument order merge_glossary_with_master_nouns(C, M).) -/
theorem merge_glossary_idempotent (M C : List Noun) :
    merge_glossary_with_master_nouns C (merge_glossary_with_master_nouns C M)
      = merge_glossary_with_master_nouns C M := by
  by_cases hM : M.isEmpty
  · by_cases hC : C.isEmpty
    · rcases List.isEmpty_iff.mp hM with rfl
      rcases List.isEmpty_iff.mp hC with rfl
      rfl
    · rcases List.isEmpty_iff.mp hM with rfl
      have hmap : ¬ (C.map mapNewNoun).isEmpty = true := by
        simp only [List.isEmpty_iff, List.map_eq_nil_iff]
        exact fun h => hC (List.isEmpty_iff.mpr h)
      simp only [merge_glossary_with_master_nouns, List.isEmpty_nil, if_true]
      rw [if_neg hmap, if_neg hC]
      have hall : ∀ n ∈ C, nounKey n ∈ (C.map mapNewNoun).map nounKey := by
        intro n hn
        refine List.mem_map.mpr ⟨mapNewNoun n, List.mem_map_of_mem mapNewNoun hn, ?_⟩
        exact nounKey_mapNewNoun n
      rw [processNewEntries_nil_of_all_mem _ _ hall, List.append_nil]
  · by_cases hC : C.isEmpty
    · rcases List.isEmpty_iff.mp hC with rfl
      simp [merge_glossary_with_master_nouns, hM]
    · have hR : ¬ (merge_glossary_with_master_nouns C M).isEmpty := by
        simp only [merge_glossary_with_master_nouns, if_neg hM, if_neg hC]
        intro hcontra
        rw [List.isEmpty_iff, List.append_eq_nil] at hcontra
        exact hM (List.isEmpty_iff.mpr hcontra.1)
      rw [merge_glossary_with_master_nouns]
      rw [if_neg hR, if_neg hC]
      conv_lhs =>
        rw [merge_glossary_with_master_nouns, if_neg hM, if_neg hC]
      rw [merge_glossary_with_master_nouns, if_neg hM, if_neg hC]
      have hall : ∀ n ∈ C,
          nounKey n ∈ ((M ++ processNewEntries (M.map nounKey) C).map nounKey) := by
        intro n hn
        rw [List.map_append, List.mem_append]
        by_cases hk : nounKey n ∈ M.map nounKey
        · exact Or.inl hk
        · exact Or.inr (key_mem_processNewEntries _ _ _ hn hk)
      rw [processNewEntries_nil_of_all_mem _ _ hall, List.append_nil]

theorem mapNewNoun_fields (n : Noun) :
    (mapNewNoun n).hangul = n.hangul ∧ (mapNewNoun n).hanja = n.hanja ∧
    (mapNewNoun n).english = n.english ∧ (mapNewNoun n).frequency = n.frequency ∧
    (mapNewNoun n).ambiguous = n.ambiguous :=
  ⟨rfl, rfl, rfl, rfl, rfl⟩

theorem processNewEntries_append (masterKeys : List Str) (l₁ l₂ : List Noun) :
    processNewEntries masterKeys (l₁ ++ l₂)
      = processNewEntries masterKeys l₁ ++ processNewEntries masterKeys l₂ := by
  induction l₁ with
  | nil => rfl
  | cons n rest ih =>
    by_cases h : nounKey n ∈ masterKeys <;>
      simp [processNewEntries, h, ih]

/-! ### text_processing.merge_localglossary_with_masternoun

The glossary file load and the fix_name/category-mapping preprocessing happen
before the merge steps; the merge core is modelled on the already-prepared entry
list.  entry['hangul'] and entry['category'] are direct key accesses and
existing_noun['hangul'] is a direct access inside the duplicate-backfill scan, so
a missing key raises; the caught-exception path (which returns the original
inputs) is modelled as none. -/

/-- The duplicate-entry scan of merge_localglossary_with_masternoun: find the
first merged record with the given hangul and set its ambiguous flag only if that
field is absent; a record without hangul encountered on the way raises (none). -/
def backfillAmbiguous (h : Str) (amb : Bool) : List Noun → Option (List Noun)
  | [] => some []
  | r :: rest =>
    match r.hangul with
    | none => none
    | some h2 =>
      if h2 = h then
        some ((if r.ambiguous = none then { r with ambiguous := some amb } else r) :: rest)
      else
        match backfillAmbiguous h amb rest with
        | none => none
        | some rest2 => some (r :: rest2)

/-- The noun_entry record built for every glossary entry: all six fields present,
with defaults for the absent ones and the category mapped (default misc). -/
def localNounEntry (e : Noun) (h : Str) (cat : Str) : Noun :=
  { hangul := some h, hanja := some (e.hanja.getD []), english := some (e.english.getD []),
    category := some (CATEGORY_MAPPING cat), frequency := some (e.frequency.getD 0),
    ambiguous := some (e.ambiguous.getD false) }

/-- The entry-processing loop of merge_localglossary_with_masternoun, carrying the
merged list and the merged-hanguls membership set. -/
def mergeLocalGo : List Noun → List Str → List Noun → Option (List Noun × List Str)
  | merged, hanguls, [] => some (merged, hanguls)
  | merged, hanguls, e :: rest =>
    match e.hangul, e.category with
    | some h, some cat =>
      if h ∈ hanguls then
        match backfillAmbiguous h (e.ambiguous.getD false) merged with
        | none => none
        | some merged2 => mergeLocalGo merged2 hanguls rest
      else mergeLocalGo (merged ++ [localNounEntry e h cat]) (h :: hanguls) rest
    | _, _ => none

/-- text_processing.merge_localglossary_with_masternoun (merge core). -/
def merge_localglossary_with_masternoun (master_nouns : List Noun)
    (existing_hanguls : List Str) (glossary_entries : List Noun) :
    Option (List Noun × List Str) :=
  mergeLocalGo master_nouns existing_hanguls glossary_entries

theorem backfillAmbiguous_keys (h : Str) (amb : Bool) (l l' : List Noun)
    (hb : backfillAmbiguous h amb l = some l') :
    l'.map nounKey = l.map nounKey := by
  induction l generalizing l' with
  | nil =>
    rw [backfillAmbiguous] at hb
    cases hb
    rfl
  | cons r rest ih =>
    rw [backfillAmbiguous] at hb
    match hr : r.hangul with
    | none => rw [hr] at hb; cases hb
    | some h2 =>
      rw [hr] at hb
      dsimp only at hb
      by_cases he : h2 = h
      · rw [if_pos he] at hb
        cases hb
        by_cases ha : r.ambiguous = none <;>
          simp [ha, nounKey, hr]
      · rw [if_neg he] at hb
        match hrec : backfillAmbiguous h amb rest with
        | none => rw [hrec] at hb; cases hb
        | some rest2 =>
          rw [hrec] at hb
          cases hb
          simp only [List.map_cons]
          rw [ih rest2 hrec]

theorem backfillAmbiguous_preserves (h : Str) (amb : Bool) (l l' : List Noun)
    (hb : backfillAmbiguous h amb l = some l') :
    ∀ r' ∈ l', ∃ r ∈ l, nounKey r' = nounKey r
      ∧ r'.category = r.category ∧ r'.english = r.english
      ∧ r'.hanja = r.hanja ∧ r'.frequency = r.frequency := by
  induction l generalizing l' with
  | nil =>
    rw [backfillAmbiguous] at hb
    cases hb
    intro r' hr'
    cases hr'
  | cons r rest ih =>
    rw [backfillAmbiguous] at hb
    match hr : r.hangul with
    | none => rw [hr] at hb; cases hb
    | some h2 =>
      rw [hr] at hb
      dsimp only at hb
      by_cases he : h2 = h
      · rw [if_pos he] at hb
        cases hb
        intro r' hr'
        rcases List.mem_cons.mp hr' with rfl | hmem
        · refine ⟨r, List.mem_cons_self r rest, ?_⟩
          by_cases ha : r.ambiguous = none <;> simp [ha, nounKey, hr]
        · exact ⟨r', List.mem_cons_of_mem r hmem, rfl, rfl, rfl, rfl, rfl⟩
      · rw [if_neg he] at hb
        match hrec : backfillAmbiguous h amb rest with
        | none => rw [hrec] at hb; cases hb
        | some rest2 =>
          rw [hrec] at hb
          cases hb
          intro r' hr'
          rcases List.mem_cons.mp hr' with rfl | hmem
          · exact ⟨r', List.mem_cons_self r' rest, rfl, rfl, rfl, rfl, rfl⟩
          · rcases ih rest2 hrec r' hmem with ⟨r0, hr0, hk, hc, heng, hhj, hf⟩
            exact ⟨r0, List.mem_cons_of_mem r hr0, hk, hc, heng, hhj, hf⟩

theorem mergeLocalGo_inv (master : List Noun) (entries : List Noun) :
    ∀ (merged : List Noun) (hanguls : List Str),
      (merged.map nounKey).Nodup →
      (∀ k, k ∈ hanguls ↔ k ∈ merged.map nounKey) →
      (∀ m ∈ master, nounKey m ∈ merged.map nounKey) →
      (∀ m ∈ master, ∀ r ∈ merged, nounKey r = nounKey m →
        r.category = m.category ∧ r.english = m.english ∧ r.hanja = m.hanja
          ∧ r.frequency = m.frequency) →
      ∀ out hs, mergeLocalGo merged hanguls entries = some (out, hs) →
        (out.map nounKey).Nodup
        ∧ ∀ m ∈ master, ∀ r ∈ out, nounKey r = nounKey m →
            r.category = m.category ∧ r.english = m.english ∧ r.hanja = m.hanja
              ∧ r.frequency = m.frequency := by
  induction entries with
  | nil =>
    intro merged hanguls h1 _ _ h4 out hs hrun
    rw [mergeLocalGo] at hrun
    cases hrun
    exact ⟨h1, h4⟩
  | cons e rest ih =>
    intro merged hanguls h1 h2 h3 h4 out hs hrun
    rw [mergeLocalGo] at hrun
    match hh : e.hangul, hc : e.category with
    | none, _ => rw [hh] at hrun; cases hrun
    | some h, none => rw [hh, hc] at hrun; cases hrun
    | some h, some cat =>
      rw [hh, hc] at hrun
      dsimp only at hrun
      by_cases hmem : h ∈ hanguls
      · rw [if_pos hmem] at hrun
        match hbf : backfillAmbiguous h (e.ambiguous.getD false) merged with
        | none => rw [hbf] at hrun; cases hrun
        | some merged2 =>
          rw [hbf] at hrun
          have hkeys := backfillAmbiguous_keys _ _ _ _ hbf
          refine ih merged2 hanguls ?_ ?_ ?_ ?_ out hs hrun
          · rw [hkeys]; exact h1
          · intro k; rw [hkeys]; exact h2 k
          · intro m hm; rw [hkeys]; exact h3 m hm
          · intro m hm r hr hk
            rcases backfillAmbiguous_preserves _ _ _ _ hbf r hr
              with ⟨r0, hr0, hkey, hcat, heng, hhj, hf⟩
            rcases h4 m hm r0 hr0 (hkey ▸ hk) with ⟨c1, c2, c3, c4⟩
            exact ⟨hcat.trans c1, heng.trans c2, hhj.trans c3, hf.trans c4⟩
      · rw [if_neg hmem] at hrun
        have hnotk : h ∉ merged.map nounKey := fun hcontra => hmem ((h2 h).mpr hcontra)
        have hkeys' : (merged ++ [localNounEntry e h cat]).map nounKey
            = merged.map nounKey ++ [h] := by
          rw [List.map_append]; rfl
        refine ih _ (h :: hanguls) ?_ ?_ ?_ ?_ out hs hrun
        · rw [hkeys', List.nodup_append]
          exact ⟨h1, List.nodup_singleton h,
            fun a ha hb => by rw [List.mem_singleton] at hb; exact hnotk (hb ▸ ha)⟩
        · intro k
          rw [hkeys', List.mem_append, List.mem_cons, List.mem_singleton, Or.comm]
          exact or_congr (h2 k) Iff.rfl
        · intro m hm
          rw [hkeys', List.mem_append]
          exact Or.inl (h3 m hm)
        · intro m hm r hr hk
          rcases List.mem_append.mp hr with hrm | hrnew
          · exact h4 m hm r hrm hk
          · exfalso
            rw [List.mem_singleton] at hrnew
            subst hrnew
            have : nounKey m ∈ merged.map nounKey := h3 m hm
            rw [← hk] at this
            exact hnotk this

/-- C1 counterexample — the master lookup is never extended while candidates are
processed, so two candidates that share a hangul key new to the master list are
both appended: with master [가] (pairwise-distinct keys) and candidates [나, 나],
the merged output carries the key 나 twice, not once. -/
theorem merge_master_priority_counterexample :
    (([{ hangul := some (chars "가") }] : List Noun).map nounKey).Nodup
    ∧ ((merge_glossary_with_master_nouns
          [{ hangul := some (chars "나") }, { hangul := some (chars "나") }]
          [{ hangul := some (chars "가") }]).map nounKey).count (chars "나") = 2 := by
  constructor
  · decide
  · decide

theorem mergeGlossary_priority_core (M C : List Noun)
    (hM : (M.map nounKey).Nodup) (hC : (C.map nounKey).Nodup) :
    ((merge_glossary_with_master_nouns C M).map nounKey).Nodup
    ∧ ∀ m ∈ M, ∀ r ∈ merge_glossary_with_master_nouns C M,
        nounKey r = nounKey m → r = m := by
  by_cases hMe : M.isEmpty
  · rcases List.isEmpty_iff.mp hMe with rfl
    constructor
    · by_cases hCe : C.isEmpty
      · rcases List.isEmpty_iff.mp hCe with rfl
        simp [merge_glossary_with_master_nouns]
      · simp only [merge_glossary_with_master_nouns, List.isEmpty_nil, if_true]
        have : (C.map mapNewNoun).map nounKey = C.map nounKey := by
          rw [List.map_map]; rfl
        rw [this]; exact hC
    · intro m hm; cases hm
  · by_cases hCe : C.isEmpty
    · rcases List.isEmpty_iff.mp hCe with rfl
      simp only [merge_glossary_with_master_nouns, if_neg hMe, List.isEmpty_nil, if_true]
      exact ⟨hM, fun m hm r hr hk => List.inj_on_of_nodup_map hM hr hm hk⟩
    · simp only [merge_glossary_with_master_nouns, if_neg hMe, if_neg hCe]
      have hfilter : processNewEntries (M.map nounKey) C
          = (C.filter (fun n => nounKey n ∉ M.map nounKey)).map mapNewNoun :=
        processNewEntries_eq _ _
      have hkeys : (processNewEntries (M.map nounKey) C).map nounKey
          = (C.filter (fun n => nounKey n ∉ M.map nounKey)).map nounKey := by
        rw [hfilter, List.map_map]; rfl
      have hsub : ((C.filter (fun n => nounKey n ∉ M.map nounKey)).map nounKey).Sublist
          (C.map nounKey) :=
        (List.filter_sublist C).map nounKey
      have hnodupNew : ((processNewEntries (M.map nounKey) C).map nounKey).Nodup := by
        rw [hkeys]; exact hsub.nodup hC
      have hdisj : ∀ k ∈ M.map nounKey, k ∉ (processNewEntries (M.map nounKey) C).map nounKey := by
        intro k hkM hkNew
        rw [hkeys] at hkNew
        rcases List.mem_map.mp hkNew with ⟨n, hn, rfl⟩
        have := List.of_mem_filter hn
        simp only [decide_eq_true_eq] at this
        exact this hkM
      constructor
      · rw [List.map_append]
        rw [List.nodup_append]
        exact ⟨hM, hnodupNew, fun k hk => hdisj k hk⟩
      · intro m hm r hr hk
        rcases List.mem_append.mp hr with hrM | hrNew
        · exact List.inj_on_of_nodup_map hM hrM hm hk
        · exfalso
          have hkM : nounKey m ∈ M.map nounKey := List.mem_map_of_mem nounKey hm
          have : nounKey r ∈ (processNewEntries (M.map nounKey) C).map nounKey :=
            List.mem_map_of_mem nounKey hrNew
          rw [hk] at this
          exact hdisj _ hkM this

/-- C1 amended — master-list priority on merge holds once the candidate list's
hangul keys are themselves pairwise distinct: the output of
merge_glossary_with_master_nouns then contains at most one record per hangul key,
and any output record sharing its key with a master record is that master record
itself, every field included (so category, english, hanja and frequency are the
first-inserted record's values, never a later candidate's).  In
merge_localglossary_with_masternoun the property holds even without
candidate-distinctness (the membership set grows as entries are absorbed):
whenever the merge succeeds, the output has pairwise-distinct hangul keys and any
output record sharing its key with a master record keeps the master's category,
english, hanja and frequency (only the ambiguous flag may be backfilled). -/
theorem merge_master_priority_amended (M C : List Noun)
    (hM : (M.map nounKey).Nodup) (hC : (C.map nounKey).Nodup) :
    (((merge_glossary_with_master_nouns C M).map nounKey).Nodup
      ∧ ∀ m ∈ M, ∀ r ∈ merge_glossary_with_master_nouns C M,
          nounKey r = nounKey m → r = m)
    ∧ ∀ (existing : List Str) (entries out : List Noun) (hs : List Str),
        (∀ k, k ∈ existing ↔ k ∈ M.map nounKey) →
        merge_localglossary_with_masternoun M existing entries = some (out, hs) →
        (out.map nounKey).Nodup
        ∧ ∀ m ∈ M, ∀ r ∈ out, nounKey r = nounKey m →
            r.category = m.category ∧ r.english = m.english ∧ r.hanja = m.hanja
              ∧ r.frequency = m.frequency := by
  refine ⟨mergeGlossary_priority_core M C hM hC, ?_⟩
  intro existing entries out hs hex hrun
  refine mergeLocalGo_inv M entries M existing hM hex ?_ ?_ out hs hrun
  · exact fun m hm => List.mem_map_of_mem nounKey hm
  · intro m hm r hr hk
    cases List.inj_on_of_nodup_map hM hr hm hk
    exact ⟨rfl, rfl, rfl, rfl⟩

/-- C1 witness — the amended merge-priority theorem at master [가], candidates
[나], for both merge code paths. -/
theorem merge_master_priority_amended_witness :
    (((([{ hangul := some (chars "가") }] : List Noun)).map nounKey).Nodup)
    ∧ ((merge_glossary_with_master_nouns [{ hangul := some (chars "나") }]
          [{ hangul := some (chars "가") }]).map nounKey).Nodup
    ∧ ∃ out hs,
        merge_localglossary_with_masternoun [{ hangul := some (chars "가") }]
            [chars "가"] [{ hangul := some (chars "나"), category := some (chars "NAME") }]
          = some (out, hs)
        ∧ (out.map nounKey).Nodup := by
  refine ⟨by decide,
    (merge_master_priority_amended [{ hangul := some (chars "가") }]
      [{ hangul := some (chars "나") }] (by decide) (by decide)).1.1, ?_⟩
  have hrun : merge_localglossary_with_masternoun [{ hangul := some (chars "가") }]
      [chars "가"] [{ hangul := some (chars "나"), category := some (chars "NAME") }]
      = some ([{ hangul := some (chars "가") },
          localNounEntry { hangul := some (chars "나"), category := some (chars "NAME") }
            (chars "나") (chars "NAME")], [chars "나", chars "가"]) := by decide
  refine ⟨_, _, hrun, ?_⟩
  exact ((merge_master_priority_amended [{ hangul := some (chars "가") }]
      [{ hangul := some (chars "나") }] (by decide) (by decide)).2
    [chars "가"] [{ hangul := some (chars "나"), category := some (chars "NAME") }]
    _ _ (fun _ => Iff.rfl) hrun).1

/-- C5 counterexample — merge_glossary_with_master_nouns fills no default fields on
append: the candidate 나나 (which lacks frequency, hanja, english and ambiguous) is
appended with only its category rewritten; the appended record still has no
frequency, hanja, english or ambiguous field at all. -/
theorem merge_new_candidate_defaults_counterexample :
    merge_glossary_with_master_nouns
        [{ hangul := some (chars "나나"), category := some (chars "NAME") }]
        [{ hangul := some (chars "가") }]
      = [{ hangul := some (chars "가") },
         { hangul := some (chars "나나"), category := some (chars "character names") }] := by
  decide

/-- C5 amended — every record in the output of merge_glossary_with_master_nouns is
either a master record or a candidate appended verbatim except for its category:
hangul, hanja, english, frequency and ambiguous are carried over exactly as they
were on the candidate (absent fields stay absent — no defaults are filled in), and
category is rewritten to CATEGORY_MAPPING of the candidate's category (default
MISC).  Conversely, every candidate whose hangul key is not in the master index
(or whose master list is empty) really is appended: a record of exactly that
shape occurs in the output. -/
theorem merge_new_candidate_defaults_amended (M C : List Noun) :
    (∀ r ∈ merge_glossary_with_master_nouns C M,
      r ∈ M ∨ ∃ c ∈ C, (M = [] ∨ nounKey c ∉ M.map nounKey)
        ∧ r.hangul = c.hangul ∧ r.hanja = c.hanja ∧ r.english = c.english
        ∧ r.frequency = c.frequency ∧ r.ambiguous = c.ambiguous
        ∧ r.category = some (CATEGORY_MAPPING (c.category.getD (chars "MISC"))))
    ∧ ∀ c ∈ C, (M = [] ∨ nounKey c ∉ M.map nounKey) →
        ∃ r ∈ merge_glossary_with_master_nouns C M,
          r.hangul = c.hangul ∧ r.hanja = c.hanja ∧ r.english = c.english
          ∧ r.frequency = c.frequency ∧ r.ambiguous = c.ambiguous
          ∧ r.category = some (CATEGORY_MAPPING (c.category.getD (chars "MISC"))) := by
  constructor
  · intro r hr
    by_cases hMe : M.isEmpty
    · rcases List.isEmpty_iff.mp hMe with rfl
      simp only [merge_glossary_with_master_nouns, List.isEmpty_nil, if_true] at hr
      rcases List.mem_map.mp hr with ⟨c, hc, rfl⟩
      exact Or.inr ⟨c, hc, Or.inl rfl, rfl, rfl, rfl, rfl, rfl, rfl⟩
    · by_cases hCe : C.isEmpty
      · rcases List.isEmpty_iff.mp hCe with rfl
        simp only [merge_glossary_with_master_nouns, if_neg hMe, List.isEmpty_nil, if_true] at hr
        exact Or.inl hr
      · simp only [merge_glossary_with_master_nouns, if_neg hMe, if_neg hCe] at hr
        rcases List.mem_append.mp hr with hrM | hrNew
        · exact Or.inl hrM
        · rw [processNewEntries_eq] at hrNew
          rcases List.mem_map.mp hrNew with ⟨c, hc, rfl⟩
          have hcC := List.mem_of_mem_filter hc
          have hck := List.of_mem_filter hc
          simp only [decide_eq_true_eq] at hck
          exact Or.inr ⟨c, hcC, Or.inr hck, rfl, rfl, rfl, rfl, rfl, rfl⟩
  · intro c hc hkey
    by_cases hMe : M.isEmpty
    · rcases List.isEmpty_iff.mp hMe with rfl
      simp only [merge_glossary_with_master_nouns, List.isEmpty_nil, if_true]
      exact ⟨mapNewNoun c, List.mem_map_of_mem mapNewNoun hc, rfl, rfl, rfl, rfl, rfl, rfl⟩
    · have hknot : nounKey c ∉ M.map nounKey := by
        rcases hkey with h | h
        · exact absurd (List.isEmpty_iff.mpr h) hMe
        · exact h
      have hCe : ¬ C.isEmpty = true := by
        intro h
        rcases List.isEmpty_iff.mp h with rfl
        cases hc
      simp only [merge_glossary_with_master_nouns, if_neg hMe, if_neg hCe]
      refine ⟨mapNewNoun c, ?_, rfl, rfl, rfl, rfl, rfl, rfl⟩
      rw [processNewEntries_eq]
      refine List.mem_append.mpr (Or.inr ?_)
      refine List.mem_map_of_mem mapNewNoun (List.mem_filter.mpr ⟨hc, ?_⟩)
      exact decide_eq_true hknot

/-- The candidate record of the C5 witness: 나나 with the NER category NAME and no
other fields. -/
def sampleNewCandidate : Noun :=
  { hangul := some (chars "나나"), category := some (chars "NAME") }

/-- C5 witness — the amended append-shape theorem evaluated on master [가] and the
single candidate 나나, in both directions. -/
theorem merge_new_candidate_defaults_amended_witness :
    { hangul := some (chars "나나"), category := some (chars "character names") }
        ∈ merge_glossary_with_master_nouns
            [{ hangul := some (chars "나나"), category := some (chars "NAME") }]
            [{ hangul := some (chars "가") }]
    ∧ (({ hangul := some (chars "나나"), category := some (chars "character names") } : Noun) ∈
          ([{ hangul := some (chars "가") }] : List Noun)
        ∨ ∃ c ∈ ([{ hangul := some (chars "나나"), category := some (chars "NAME") }] : List Noun),
            (([{ hangul := some (chars "가") }] : List Noun) = []
              ∨ nounKey c ∉ ([{ hangul := some (chars "가") }] : List Noun).map nounKey)
            ∧ ({ hangul := some (chars "나나"),
                  category := some (chars "character names") } : Noun).hangul = c.hangul
            ∧ ({ hangul := some (chars "나나"),
                  category := some (chars "character names") } : Noun).hanja = c.hanja
            ∧ ({ hangul := some (chars "나나"),
                  category := some (chars "character names") } : Noun).english = c.english
            ∧ ({ hangul := some (chars "나나"),
                  category := some (chars "character names") } : Noun).frequency = c.frequency
            ∧ ({ hangul := some (chars "나나"),
                  category := some (chars "character names") } : Noun).ambiguous = c.ambiguous
            ∧ ({ hangul := some (chars "나나"),
                  category := some (chars "character names") } : Noun).category
                = some (CATEGORY_MAPPING (c.category.getD (chars "MISC"))))
    ∧ ∃ r ∈ merge_glossary_with_master_nouns
          [{ hangul := some (chars "나나"), category := some (chars "NAME") }]
          [{ hangul := some (chars "가") }],
        r.hangul = sampleNewCandidate.hangul
        ∧ r.hanja = sampleNewCandidate.hanja
        ∧ r.english = sampleNewCandidate.english
        ∧ r.frequency = sampleNewCandidate.frequency
        ∧ r.ambiguous = sampleNewCandidate.ambiguous
        ∧ r.category
            = some (CATEGORY_MAPPING (sampleNewCandidate.category.getD (chars "MISC"))) := by
  refine ⟨by decide, ?_, ?_⟩
  · exact (merge_new_candidate_defaults_amended
      [{ hangul := some (chars "가") }]
      [{ hangul := some (chars "나나"), category := some (chars "NAME") }]).1
      { hangul := some (chars "나나"), category := some (chars "character names") }
      (by decide)
  · exact (merge_new_candidate_defaults_amended
      [{ hangul := some (chars "가") }]
      [{ hangul := some (chars "나나"), category := some (chars "NAME") }]).2
      sampleNewCandidate (List.mem_cons_self _ _) (Or.inr (by decide))

/-- C6 counterexample — a candidate missing hangul is not skipped by
merge_glossary_with_master_nouns: its key defaults to the empty string, which is
not a master key here, so the malformed record is absorbed into the output (with
its category mapped), contradicting the claim that it is never absorbed under any key. -/
theorem merge_malformed_counterexample :
    merge_glossary_with_master_nouns
        [{ category := some (chars "NAME") }]
        [{ hangul := some (chars "가") }]
      = [{ hangul := some (chars "가") },
         { category := some (chars "character names") }] := by
  decide

/-- C6 amended — a candidate lacking hangul never aborts the merge batch of
merge_glossary_with_master_nouns and every other candidate is still processed, but
the malformed record is not skipped: it is keyed by the empty string and appended
(category-mapped) exactly when the empty string is not a master key. -/
theorem merge_malformed_amended (M C₁ C₂ : List Noun) (c : Noun)
    (hM : ¬ M.isEmpty = true) (hc : c.hangul = none) :
    merge_glossary_with_master_nouns (C₁ ++ c :: C₂) M
      = M ++ (processNewEntries (M.map nounKey) C₁
          ++ (if ([] : Str) ∈ M.map nounKey then [] else [mapNewNoun c])
          ++ processNewEntries (M.map nounKey) C₂) := by
  have hne : ¬ (C₁ ++ c :: C₂).isEmpty = true := by
    simp [List.isEmpty_iff]
  rw [merge_glossary_with_master_nouns, if_neg hM, if_neg hne]
  rw [processNewEntries_append]
  have hkey : nounKey c = [] := by simp [nounKey, hc]
  have : processNewEntries (M.map nounKey) (c :: C₂)
      = (if ([] : Str) ∈ M.map nounKey then [] else [mapNewNoun c])
        ++ processNewEntries (M.map nounKey) C₂ := by
    rw [processNewEntries, hkey]
    by_cases h : ([] : Str) ∈ M.map nounKey
    · simp [h]
    · simp [h]
  rw [this, List.append_assoc]

/-- C6 witness — the amended malformed-candidate theorem at master [가] and the
candidate batch [나, (no hangul), 다]: the batch is fully processed. -/
theorem merge_malformed_amended_witness :
    merge_glossary_with_master_nouns
        ([{ hangul := some (chars "나") }] ++ { category := some (chars "NAME") }
          :: [{ hangul := some (chars "다") }])
        [{ hangul := some (chars "가") }]
      = [{ hangul := some (chars "가") }]
        ++ (processNewEntries ([{ hangul := some (chars "가") }].map nounKey)
              [{ hangul := some (chars "나") }]
          ++ (if ([] : Str) ∈ ([{ hangul := some (chars "가") }] : List Noun).map nounKey
              then [] else [mapNewNoun { category := some (chars "NAME") }])
          ++ processNewEntries ([{ hangul := some (chars "가") }].map nounKey)
              [{ hangul := some (chars "다") }]) :=
  merge_malformed_amended [{ hangul := some (chars "가") }]
    [{ hangul := some (chars "나") }] [{ hangul := some (chars "다") }]
    { category := some (chars "NAME") } (by decide) rfl

/-! ## Category Correction Pass: text_processing.fix_name_misidentification

The dictionary cache is loaded from a JSON file at run time; only key membership
is ever consulted, so it is modelled as a membership predicate parameter. -/

/-- The all_surnames_raw literal of fix_name_misidentification, transcribed verbatim
(duplicates included, order preserved). -/
def all_surnames_raw : List Str := List.map chars [
  "가", "간", "갈", "감", "강", "견", "경", "계", "고", "곡", "공", "곽", "관", "교",
  "구", "국", "궁", "궉", "권", "근", "금", "기", "길", "김", "나", "난", "남", "남궁",
  "낭", "내", "노", "뇌", "다", "단", "담", "당", "대", "도", "독", "독고", "돈", "동",
  "동방", "두", "등", "등정", "라", "란", "랑", "려", "로", "뢰", "류", "리", "림", "마",
  "만", "망절", "매", "맹", "명", "모", "목", "묵", "문", "미", "민", "박", "반", "방",
  "배", "백", "번", "범", "변", "보", "복", "봉", "부", "비", "빈", "빙", "사", "사공",
  "산", "삼", "상", "서", "서문", "석", "선", "선우", "설", "섭", "성", "소", "손", "송",
  "수", "순", "승", "시", "신", "심", "아", "안", "애", "야", "양", "어", "어금", "엄", "일",
  "여", "연", "염", "엽", "영", "예", "오", "옥", "온", "옹", "완", "왕", "요", "용",
  "우", "운", "원", "위", "유", "육", "윤", "은", "음", "이", "인", "임", "자", "장",
  "전", "점", "정", "제", "제갈", "조", "종", "좌", "주", "증", "지", "진", "차", "창",
  "채", "천", "초", "총", "최", "추", "탁", "탄", "탕", "태", "판", "팽", "편", "평",
  "포", "표", "풍", "피", "필", "하", "학", "한", "함", "해", "허", "현", "형", "호",
  "홍", "화", "황", "황목", "황보", "후", "강", "강전", "개", "군", "뇌", "누", "단",
  "돈", "두", "범", "빙", "소봉", "십", "양", "여", "영", "예", "장곡", "저", "준", "검",
  "즙", "초", "춘", "편", "환", "흥", "고이", "명림", "목", "목협", "백", "부여", "사마",
  "소실", "수미", "여", "연", "우", "을", "을지", "조미", "중실", "협", "흑치", "백리",
  "순우", "제오", "동방", "동각", "동곽", "동문", "단목", "공손", "공양", "공야", "공서",
  "관구", "곡량", "황보", "령호", "록리", "려구", "남궁", "구양", "상관", "신도", "사마",
  "사도", "사공", "사구", "태사", "담대", "문인", "우마", "하후", "선우", "서문", "헌원",
  "양자", "악정", "종리", "제갈", "축융", "자거", "좌인", "혁련"]

/-- Order-preserving first-occurrence deduplication, as in the seen-set loop of
fix_name_misidentification. -/
def dedupKeepFirst (seen : List Str) : List Str → List Str
  | [] => []
  | s :: rest =>
    if s ∈ seen then dedupKeepFirst seen rest
    else s :: dedupKeepFirst (s :: seen) rest

/-- all_surnames_clean: the raw surname list with duplicates removed, order preserved. -/
def all_surnames_clean : List Str := dedupKeepFirst [] all_surnames_raw

/-- Single-character surnames. -/
def single_char_surnames : List Str := all_surnames_clean.filter (fun s => s.length = 1)

/-- Compound surnames, sorted longest first (a stable sort with key len, reverse,
as in the source). -/
def compound_surnames : List Str :=
  (all_surnames_clean.filter (fun s => s.length ≥ 2)).mergeSort
    (fun a b => decide (b.length ≤ a.length))

/-- The combined surname list used by the organization check. -/
def all_surnames_for_check : List Str := compound_surnames ++ single_char_surnames

/-- The fixed skills suffix list of fix_name_misidentification. -/
def skills_suffixes : List Str := List.map chars
  ["무공", "신공", "마공", "검법", "도법", "창법", "보법", "대법", "진법", "술법", "절맥", "검형", "신장"]

/-- The highest-priority organization test: the hangul ends with 가 or 세가 and some
surname of the combined table is the exact remaining text before that suffix. -/
def isSurnameOrganization (hangul : Str) : Bool :=
  ((chars "가").isSuffixOf hangul || (chars "세가").isSuffixOf hangul)
  && all_surnames_for_check.any (fun s =>
      s.isPrefixOf hangul
      && (List.drop s.length hangul == chars "가"
          || List.drop s.length hangul == chars "세가"))

/-- The compound-surname name override of the per-entry loop: fires only for
hangul length exactly 3 or 4, regardless of the current category. -/
def compoundNameMatch (hangul : Str) : Bool :=
  (hangul.length = 3 || hangul.length = 4)
  && compound_surnames.any (fun s => s.isPrefixOf hangul)

/-- The single-character-surname name override of the per-entry loop: fires only
when no compound match fired, the current category is misc or empty, the hangul
length is 2 or 3, and the english field is still empty. -/
def singleNameMatch (currentCategory english hangul : Str) : Bool :=
  (currentCategory == chars "misc" || currentCategory == ([] : Str))
  && (hangul.length = 2 || hangul.length = 3) && english == ([] : Str)
  && single_char_surnames.any (fun s => s.isPrefixOf hangul)

/-- The per-entry body of the fix_name_misidentification loop (each iteration
appends exactly one corrected entry). -/
def fixEntry (cache : Str → Bool) (e : Noun) : Noun :=
  if isSurnameOrganization (e.hangul.getD []) then
    { e with category := some (chars "locations and organizations") }
  else if skills_suffixes.any (fun suf => suf.isSuffixOf (e.hangul.getD [])) then
    { e with category := some (chars "skills and techniques") }
  else if cache (e.hangul.getD []) then e
  else if compoundNameMatch (e.hangul.getD []) then
    { e with category := some (chars "character names") }
  else if singleNameMatch (e.category.getD []) (e.english.getD []) (e.hangul.getD []) then
    { e with category := some (chars "character names") }
  else e

/-- text_processing.fix_name_misidentification: one corrected entry per input entry,
in input order. -/
def fix_name_misidentification (cache : Str → Bool) (glossary_entries : List Noun) :
    List Noun :=
  glossary_entries.map (fixEntry cache)

theorem fixEntry_fields (cache : Str → Bool) (e : Noun) :
    (fixEntry cache e).hangul = e.hangul ∧ (fixEntry cache e).hanja = e.hanja
    ∧ (fixEntry cache e).english = e.english ∧ (fixEntry cache e).frequency = e.frequency
    ∧ (fixEntry cache e).ambiguous = e.ambiguous := by
  unfold fixEntry
  repeat' split
  all_goals exact ⟨rfl, rfl, rfl, rfl, rfl⟩

theorem mem_compound_surnames_of : chars "남궁" ∈ compound_surnames := by
  rw [compound_surnames, List.mem_mergeSort]
  decide

theorem isSurnameOrganization_of_surname (h : Str) (s : Str)
    (hs : s ∈ all_surnames_for_check)
    (hcase : h = s ++ chars "가" ∨ h = s ++ chars "세가") :
    isSurnameOrganization h = true := by
  unfold isSurnameOrganization
  rw [Bool.and_eq_true, Bool.or_eq_true, List.any_eq_true]
  constructor
  · rcases hcase with rfl | rfl
    · exact Or.inl (List.isSuffixOf_iff_suffix.mpr (List.suffix_append s (chars "가")))
    · exact Or.inr (List.isSuffixOf_iff_suffix.mpr (List.suffix_append s (chars "세가")))
  · refine ⟨s, hs, ?_⟩
    rw [Bool.and_eq_true, Bool.or_eq_true]
    rcases hcase with rfl | rfl
    · exact ⟨List.isPrefixOf_iff_prefix.mpr (List.prefix_append s (chars "가")),
        Or.inl (beq_iff_eq.mpr (List.drop_left s (chars "가")))⟩
    · exact ⟨List.isPrefixOf_iff_prefix.mpr (List.prefix_append s (chars "세가")),
        Or.inr (beq_iff_eq.mpr (List.drop_left s (chars "세가")))⟩

/-- C7 — Organization override: an entry whose hangul is exactly a known surname
followed by 가 or 세가 is reclassified to "locations and organizations" no matter
what its original category was, and no further rule runs for it: the output entry
is exactly the input with only its category overridden, for every dictionary-cache
state (so the cache short-circuit is bypassed as well). -/
theorem fix_name_organization_override (cache : Str → Bool) (entries : List Noun)
    (i : Nat) (e : Noun) (he : entries[i]? = some e)
    (hsuffix : ∃ s ∈ all_surnames_for_check,
        e.hangul.getD [] = s ++ chars "가" ∨ e.hangul.getD [] = s ++ chars "세가") :
    (fix_name_misidentification cache entries)[i]?
      = some { e with category := some (chars "locations and organizations") } := by
  rcases hsuffix with ⟨s, hs, hcase⟩
  have horg : isSurnameOrganization (e.hangul.getD []) = true :=
    isSurnameOrganization_of_surname _ s hs hcase
  rw [fix_name_misidentification, List.getElem?_map, he]
  show some (fixEntry cache e) = _
  congr 1
  unfold fixEntry
  rw [if_pos horg]

/-- C7 witness — the scenario entry 남궁가 with category "character names" is
reclassified to "locations and organizations" (남궁 is a compound surname). -/
theorem fix_name_organization_override_witness :
    ([{ hangul := some (chars "남궁가"), category := some (chars "character names") }]
        : List Noun)[0]?
      = some { hangul := some (chars "남궁가"), category := some (chars "character names") }
    ∧ (∃ s ∈ all_surnames_for_check,
        ({ hangul := some (chars "남궁가"), category := some (chars "character names") }
          : Noun).hangul.getD [] = s ++ chars "가"
        ∨ ({ hangul := some (chars "남궁가"), category := some (chars "character names") }
          : Noun).hangul.getD [] = s ++ chars "세가")
    ∧ (fix_name_misidentification (fun _ => true)
        [{ hangul := some (chars "남궁가"), category := some (chars "character names") }])[0]?
      = some { hangul := some (chars "남궁가"),
               category := some (chars "locations and organizations") } := by
  have hmem : chars "남궁" ∈ all_surnames_for_check :=
    List.mem_append_left _ mem_compound_surnames_of
  refine ⟨rfl, ⟨chars "남궁", hmem, Or.inl (by decide)⟩, ?_⟩
  exact fix_name_organization_override (fun _ => true)
    [{ hangul := some (chars "남궁가"), category := some (chars "character names") }]
    0 { hangul := some (chars "남궁가"), category := some (chars "character names") }
    rfl ⟨chars "남궁", hmem, Or.inl (by decide)⟩

/-- C10 — Category Correction frame property: fix_name_misidentification returns a
list of the same length, in the same order, and each output entry can differ from
its input entry only in the category field: hangul, hanja, english, frequency and
ambiguous are preserved, and no entry is added or dropped. -/
theorem fix_name_frame (cache : Str → Bool) (entries : List Noun) :
    (fix_name_misidentification cache entries).length = entries.length
    ∧ ∀ i : Nat, ∀ e : Noun, entries[i]? = some e →
        ∃ o : Noun, (fix_name_misidentification cache entries)[i]? = some o
          ∧ o.hangul = e.hangul ∧ o.hanja = e.hanja ∧ o.english = e.english
          ∧ o.frequency = e.frequency ∧ o.ambiguous = e.ambiguous := by
  constructor
  · exact List.length_map entries (fixEntry cache)
  · intro i e he
    refine ⟨fixEntry cache e, ?_, fixEntry_fields cache e⟩
    rw [fix_name_misidentification, List.getElem?_map, he]
    rfl

/-- C10 witness — the frame property evaluated on a one-entry list. -/
theorem fix_name_frame_witness :
    ∃ o : Noun, (fix_name_misidentification (fun _ => false)
        [{ hangul := some (chars "남궁가"), frequency := some 7 }])[0]? = some o
      ∧ o.hangul = (some (chars "남궁가"))
      ∧ o.hanja = none ∧ o.english = none ∧ o.frequency = some 7 ∧ o.ambiguous = none := by
  rcases (fix_name_frame (fun _ => false)
      [{ hangul := some (chars "남궁가"), frequency := some 7 }]).2 0
      { hangul := some (chars "남궁가"), frequency := some 7 } rfl with ⟨o, h1, h2, h3, h4, h5, h6⟩
  exact ⟨o, h1, h2, h3, h4, h5, h6⟩

/-! ## Ambiguity detection: ambiguity_detector.AmbiguityDetector

The external dictionary service (API-key check, krdict client, HTTP fallback and
failure synthesis) is abstracted into an oracle api : Str -> DictEntry giving the
entry that the source would cache for a word it actually looks up; the
master-nouns translation cache is abstracted into a predicate tc : Str -> Bool.
The persistent dictionary cache is explicit state.  Cache meanings and word_type
never influence control flow and are omitted from the cache-entry record. -/

/-- The punctuation_chars set of AmbiguityDetector, transcribed from the source
(ASCII, CJK and additional common punctuation; the source set contains the ASCII
double quote and backtick twice, which is irrelevant for membership). -/
def punctuation_chars : List Char :=
  ['!', Char.ofNat 34, '#', '$', '%', '&', Char.ofNat 39, '(', ')', '*', '+', ',',
   '-', '.', '/', ':', ';', '<', '=', '>', '?', '@', '[', Char.ofNat 92, ']', '^',
   '_', Char.ofNat 96, Char.ofNat 123, '|', Char.ofNat 125, '~',
   '。', '，', '、', '；', '：', '「', '」', '『', '』', '（', '）', '［', '］',
   '｛', '｝', '【', '】', '《', '》', '〈', '〉', '！', '？', '～', '…', '・', '‧',
   '·', '•', '―', '–', '—', '′', '″', '‘', '’', '‚', '‛', '„', '‟', '‹', '›',
   '«', '»', '¡', '¿', '¨', '´', 'ˆ', '˜', '¯', '˘', '˙', '˚', '¸', '˝', '˛', 'ˇ']

/-- AmbiguityDetector._contains_punctuation. -/
def containsPunctuation (text : Str) : Bool :=
  text.any (fun c => c ∈ punctuation_chars)

/-- The flattened Korean particle list of AmbiguityDetector.__init__, in dict
insertion order (topic, subject, object, possessive, dative, locative,
instrumental, vocative, additive, conjunction). -/
def all_particles : List Str := List.map chars
  ["은", "는", "이", "가", "을", "를", "의", "에게", "한테", "에", "에서",
   "으로", "로", "아", "야", "도", "과", "와", "랑"]

/-- AmbiguityDetector._ends_with_particle. -/
def endsWithParticle (text : Str) : Bool :=
  all_particles.any (fun p => p.isSuffixOf text)

/-- The fixed blacklist of known-ambiguous two-character strings in
is_entry_ambiguous. -/
def ambiguity_blacklist : List Str := List.map chars
  ["신의", "마의", "개방", "정도", "기도", "화기", "전장", "보도"]

/-- Python str.replace(pat, ''), left-to-right non-overlapping removal; the fuel
starts at the string length, which each step consumes at least as fast as the
fuel, so the zero-fuel fallback is unreachable. -/
def removeAllAux (pat : Str) : Nat → Str → Str
  | _, [] => []
  | 0, s => s
  | fuel + 1, c :: rest =>
    if pat.isPrefixOf (c :: rest) then removeAllAux pat fuel (List.drop (pat.length - 1) rest)
    else c :: removeAllAux pat fuel rest

/-- Python str.replace(pat, '') for a non-empty pattern. -/
def removeAll (pat : Str) (s : Str) : Str :=
  if pat.isEmpty then s else removeAllAux pat s.length s

/-- A persisted dictionary-cache verdict; only found and is_common influence any
decision in the source (meanings and word_type are carried but never read). -/
structure DictEntry where
  found : Bool
  is_common : Bool
deriving DecidableEq

/-- AmbiguityDetector._lookup_korean_word: check the in-memory cache, synthesize a
negative result for empty, continuation-marker or length <= 1 words, otherwise
consult the external service (abstracted as the api oracle); every outcome is
written into the cache. -/
def lookup_korean_word (api : Str → DictEntry) (cache : List (Str × DictEntry))
    (word : Str) : DictEntry × List (Str × DictEntry) :=
  let clean := pyStrip word
  match cache.lookup clean with
  | some r => (r, cache)
  | none =>
    if clean.isEmpty || (chars "##").isPrefixOf clean || clean.length ≤ 1 then
      (⟨false, decide (clean.length ≤ 1)⟩,
        (clean, (⟨false, decide (clean.length ≤ 1)⟩ : DictEntry)) :: cache)
    else
      (api clean, (clean, api clean) :: cache)

/-- AmbiguityDetector.is_entry_ambiguous.  The corpus-cohesion score of the final
branch is computed and then discarded by the source (the function returns True
unconditionally after the dictionary check fails), so no cohesion oracle is
needed. -/
def is_entry_ambiguous (tc : Str → Bool) (api : Str → DictEntry)
    (cache : List (Str × DictEntry)) (noun : Noun) : Bool × List (Str × DictEntry) :=
  let hangul := pyStrip (noun.hangul.getD [])
  let english := pyStrip (noun.english.getD [])
  let hanja := pyStrip (noun.hanja.getD [])
  let clean_text := pyStrip (removeAll (chars "##") hangul)
  if hangul.length = 1 then (true, cache)
  else if 3 ≤ hangul.length then (false, cache)
  else if clean_text ∈ ambiguity_blacklist then (true, cache)
  else if endsWithParticle hangul then (true, cache)
  else if !english.isEmpty || !hanja.isEmpty then (false, cache)
  else if tc clean_text then (false, cache)
  else
    let res := lookup_korean_word api cache clean_text
    if res.1.found && res.1.is_common then (false, res.2)
    else (true, res.2)

/-- The particle-stripping loop shared by _strip_particles_based_on_length and
_get_stripped_version_for_comparison: the first listed particle that is a suffix
and whose removal leaves at least two characters is stripped. -/
def stripLoop (clean : Str) : List Str → Str
  | [] => clean
  | p :: rest =>
    if p.isSuffixOf clean then
      if 2 ≤ (clean.take (clean.length - p.length)).length then
        clean.take (clean.length - p.length)
      else stripLoop clean rest
    else stripLoop clean rest

/-- AmbiguityDetector._get_stripped_version_for_comparison. -/
def get_stripped_version_for_comparison (hangul : Str) : Str :=
  if 3 < (pyStrip hangul).length then stripLoop (pyStrip hangul) all_particles
  else pyStrip hangul

/-- Step 1 of run_ambiguity_detection_on_list: drop records whose stripped hangul
is empty or contains punctuation. -/
def filterStep1 (nouns : List Noun) : List Noun :=
  nouns.filter (fun n =>
    !((pyStrip (n.hangul.getD [])).isEmpty
      || containsPunctuation (pyStrip (n.hangul.getD []))))

/-- Step 2 of run_ambiguity_detection_on_list: drop one-character records entirely. -/
def filterStep2 (nouns : List Noun) : List Noun :=
  nouns.filter (fun n => !((pyStrip (n.hangul.getD [])).length == 1))

/-- Step 3 of run_ambiguity_detection_on_list: for records longer than three
characters, keep only the first record per particle-stripped comparison key. -/
def dedupByStrippedKey (seen : List Str) : List Noun → List Noun
  | [] => []
  | n :: rest =>
    if 3 < (pyStrip (n.hangul.getD [])).length then
      if get_stripped_version_for_comparison (pyStrip (n.hangul.getD [])) ∈ seen then
        dedupByStrippedKey seen rest
      else n :: dedupByStrippedKey
        (get_stripped_version_for_comparison (pyStrip (n.hangul.getD [])) :: seen) rest
    else n :: dedupByStrippedKey seen rest

/-- Step 4 per-record finalization: set the ambiguous flag on a copy and default
english and hanja to the empty string when absent. -/
def finalizeNoun (n : Noun) (amb : Bool) : Noun :=
  { n with ambiguous := some amb,
           english := some (n.english.getD []),
           hanja := some (n.hanja.getD []) }

/-- Step 4 per-record decision: only two-character records run is_entry_ambiguous;
everything longer is never ambiguous and touches neither the dictionary cache nor
the external service. -/
def classifyStep (tc : Str → Bool) (api : Str → DictEntry)
    (cache : List (Str × DictEntry)) (n : Noun) : Noun × List (Str × DictEntry) :=
  if (pyStrip (n.hangul.getD [])).length = 2 then
    ((finalizeNoun n (is_entry_ambiguous tc api cache n).1),
      (is_entry_ambiguous tc api cache n).2)
  else (finalizeNoun n false, cache)

/-- Step 4 of run_ambiguity_detection_on_list, threading the dictionary cache
through the batch. -/
def detectLoop (tc : Str → Bool) (api : Str → DictEntry) :
    List (Str × DictEntry) → List Noun → List Noun
  | _, [] => []
  | cache, n :: rest =>
    (classifyStep tc api cache n).1
      :: detectLoop tc api (classifyStep tc api cache n).2 rest

/-- AmbiguityDetector.run_ambiguity_detection_on_list (the final cache save is a
side effect outside the returned value). -/
def run_ambiguity_detection_on_list (tc : Str → Bool) (api : Str → DictEntry)
    (cache : List (Str × DictEntry)) (nouns_list : List Noun) : List Noun :=
  if nouns_list.isEmpty then nouns_list
  else detectLoop tc api cache (dedupByStrippedKey [] (filterStep2 (filterStep1 nouns_list)))

/-! ### Helper lemmas about the batch pass -/

theorem finalizeNoun_hangul (n : Noun) (b : Bool) : (finalizeNoun n b).hangul = n.hangul := rfl

theorem finalizeNoun_ambiguous (n : Noun) (b : Bool) :
    (finalizeNoun n b).ambiguous = some b := rfl

theorem dedupByStrippedKey_subset (seen : List Str) (l : List Noun) :
    ∀ n ∈ dedupByStrippedKey seen l, n ∈ l := by
  induction l generalizing seen with
  | nil => intro n h; cases h
  | cons m rest ih =>
    intro n h
    rw [dedupByStrippedKey] at h
    split at h
    · split at h
      · exact List.mem_cons_of_mem m (ih seen n h)
      · rcases List.mem_cons.mp h with rfl | h2
        · exact List.mem_cons_self n rest
        · exact List.mem_cons_of_mem m (ih _ n h2)
    · rcases List.mem_cons.mp h with rfl | h2
      · exact List.mem_cons_self n rest
      · exact List.mem_cons_of_mem m (ih seen n h2)

theorem detectLoop_mem (tc : Str → Bool) (api : Str → DictEntry)
    (cache : List (Str × DictEntry)) (l : List Noun) :
    ∀ r ∈ detectLoop tc api cache l,
      ∃ n ∈ l, ∃ b : Bool, r = finalizeNoun n b
        ∧ ((pyStrip (n.hangul.getD [])).length = 2 ∨ b = false) := by
  induction l generalizing cache with
  | nil => intro r h; cases h
  | cons m rest ih =>
    intro r h
    rw [detectLoop] at h
    rcases List.mem_cons.mp h with rfl | h2
    · rw [classifyStep]
      split
      · next hlen =>
        exact ⟨m, List.mem_cons_self m rest, _, rfl, Or.inl hlen⟩
      · exact ⟨m, List.mem_cons_self m rest, false, rfl, Or.inr rfl⟩
    · rcases ih _ r h2 with ⟨n, hn, b, hb, hcase⟩
      exact ⟨n, List.mem_cons_of_mem m hn, b, hb, hcase⟩

theorem detectLoop_pair (tc₁ tc₂ : Str → Bool) (api₁ api₂ : Str → DictEntry)
    (l : List Noun) :
    ∀ (c₁ c₂ : List (Str × DictEntry)) (i : Nat) (r₁ r₂ : Noun),
      (detectLoop tc₁ api₁ c₁ l)[i]? = some r₁ →
      (detectLoop tc₂ api₂ c₂ l)[i]? = some r₂ →
      3 ≤ (pyStrip (r₁.hangul.getD [])).length → r₁ = r₂ := by
  induction l with
  | nil =>
    intro c₁ c₂ i r₁ r₂ h1
    rw [detectLoop] at h1
    simp at h1
  | cons m rest ih =>
    intro c₁ c₂ i r₁ r₂ h1 h2 hlen
    rw [detectLoop] at h1 h2
    match i with
    | 0 =>
      simp only [List.getElem?_cons_zero, Option.some_inj] at h1 h2
      subst h1; subst h2
      rw [classifyStep] at hlen ⊢
      split at hlen
      · next h2c =>
        rw [finalizeNoun_hangul] at hlen
        rw [h2c] at hlen
        omega
      · next h2c =>
        rw [if_neg h2c]
        rw [classifyStep, if_neg h2c]
    | j + 1 =>
      simp only [List.getElem?_cons_succ] at h1 h2
      exact ih _ _ j r₁ r₂ h1 h2 hlen

theorem detectLoop_length (tc : Str → Bool) (api : Str → DictEntry)
    (cache : List (Str × DictEntry)) (l : List Noun) :
    (detectLoop tc api cache l).length = l.length := by
  induction l generalizing cache with
  | nil => rfl
  | cons m rest ih => rw [detectLoop, List.length_cons, List.length_cons, ih]

/-- C2 — Batch ambiguity-pass filtering: no record in the output of
run_ambiguity_detection_on_list has an empty trimmed hangul, a trimmed hangul of
length exactly one, or any punctuation character in its trimmed hangul — such
records are removed entirely. -/
theorem ambiguity_batch_filter (tc : Str → Bool) (api : Str → DictEntry)
    (cache : List (Str × DictEntry)) (nouns : List Noun) :
    ∀ r ∈ run_ambiguity_detection_on_list tc api cache nouns,
      pyStrip (r.hangul.getD []) ≠ []
      ∧ (pyStrip (r.hangul.getD [])).length ≠ 1
      ∧ ∀ c ∈ pyStrip (r.hangul.getD []), c ∉ punctuation_chars := by
  intro r hr
  rw [run_ambiguity_detection_on_list] at hr
  split at hr
  · next he =>
    rcases List.isEmpty_iff.mp he with rfl
    cases hr
  · rcases detectLoop_mem _ _ _ _ r hr with ⟨n, hn, b, rfl, _⟩
    have hn2 : n ∈ filterStep2 (filterStep1 nouns) := dedupByStrippedKey_subset _ _ n hn
    have hcond2 := List.of_mem_filter hn2
    have hn1 : n ∈ filterStep1 nouns := List.mem_of_mem_filter hn2
    have hcond1 := List.of_mem_filter hn1
    rw [finalizeNoun_hangul]
    simp only [Bool.not_eq_eq_eq_not, Bool.not_true, Bool.or_eq_false_iff] at hcond1
    constructor
    · intro hnil
      have : (pyStrip (n.hangul.getD [])).isEmpty = true := by
        rw [hnil]; rfl
      rw [this] at hcond1
      exact Bool.true_eq_false.mp hcond1.1
    constructor
    · intro hone
      rw [Bool.not_eq_eq_eq_not, Bool.not_true, beq_eq_false_iff_ne] at hcond2
      exact hcond2 hone
    · intro c hc hcpunct
      have : containsPunctuation (pyStrip (n.hangul.getD [])) = true := by
        rw [containsPunctuation, List.any_eq_true]
        exact ⟨c, hc, decide_eq_true hcpunct⟩
      rw [this] at hcond1
      exact Bool.true_eq_false.mp hcond1.2

/-- A small noisy sample batch: a valid two-character term, a one-character term
and a term containing punctuation. -/
def sampleNoisyBatch : List Noun :=
  [{ hangul := some (chars "천마") }, { hangul := some (chars "마") },
   { hangul := some (chars "천마!") }]

/-- The record the batch pass keeps from sampleNoisyBatch (ambiguous by the
conservative two-character default under an always-negative oracle). -/
def sampleKeptRecord : Noun :=
  { hangul := some (chars "천마"), hanja := some [], english := some [],
    ambiguous := some true }

/-- C2 witness — the batch pass applied to a noisy input list keeps 천마 and the
kept record satisfies the filtering property. -/
theorem ambiguity_batch_filter_witness :
    sampleKeptRecord
      ∈ run_ambiguity_detection_on_list (fun _ => false) (fun _ => ⟨false, false⟩) []
          sampleNoisyBatch
    ∧ (pyStrip (sampleKeptRecord.hangul.getD []) ≠ []
      ∧ (pyStrip (sampleKeptRecord.hangul.getD [])).length ≠ 1
      ∧ ∀ c ∈ pyStrip (sampleKeptRecord.hangul.getD []), c ∉ punctuation_chars) := by
  have hmem : sampleKeptRecord
      ∈ run_ambiguity_detection_on_list (fun _ => false) (fun _ => ⟨false, false⟩) []
          sampleNoisyBatch := by decide
  exact ⟨hmem, ambiguity_batch_filter (fun _ => false) (fun _ => ⟨false, false⟩) []
    sampleNoisyBatch _ hmem⟩

/-- C3 — every output record of the batch pass whose trimmed hangul has length at
least three carries ambiguous = false, and classifying such a record consults
neither the dictionary cache nor the external service: the record is identical
for every translation cache, every external-lookup oracle and every initial
dictionary-cache state. -/
theorem ambiguity_three_plus_not_ambiguous (tc₁ tc₂ : Str → Bool)
    (api₁ api₂ : Str → DictEntry) (cache₁ cache₂ : List (Str × DictEntry))
    (nouns : List Noun) :
    (∀ r ∈ run_ambiguity_detection_on_list tc₁ api₁ cache₁ nouns,
        3 ≤ (pyStrip (r.hangul.getD [])).length → r.ambiguous = some false)
    ∧ (run_ambiguity_detection_on_list tc₁ api₁ cache₁ nouns).length
        = (run_ambiguity_detection_on_list tc₂ api₂ cache₂ nouns).length
    ∧ ∀ (i : Nat) (r₁ r₂ : Noun),
        (run_ambiguity_detection_on_list tc₁ api₁ cache₁ nouns)[i]? = some r₁ →
        (run_ambiguity_detection_on_list tc₂ api₂ cache₂ nouns)[i]? = some r₂ →
        3 ≤ (pyStrip (r₁.hangul.getD [])).length → r₁ = r₂ := by
  refine ⟨?_, ?_, ?_⟩
  · intro r hr hlen
    rw [run_ambiguity_detection_on_list] at hr
    split at hr
    · next he =>
      rcases List.isEmpty_iff.mp he with rfl
      cases hr
    · rcases detectLoop_mem _ _ _ _ r hr with ⟨n, _, b, rfl, hcase⟩
      rcases hcase with h2 | rfl
      · rw [finalizeNoun_hangul, h2] at hlen; omega
      · exact finalizeNoun_ambiguous n false
  · rw [run_ambiguity_detection_on_list, run_ambiguity_detection_on_list]
    split
    · rfl
    · rw [detectLoop_length, detectLoop_length]
  · intro i r₁ r₂ h1 h2 hlen
    rw [run_ambiguity_detection_on_list] at h1 h2
    split at h1
    · next he =>
      rcases List.isEmpty_iff.mp he with rfl
      simp at h1
    · next he =>
      rw [if_neg he] at h2
      exact detectLoop_pair tc₁ tc₂ api₁ api₂ _ _ _ i r₁ r₂ h1 h2 hlen

/-- The three-character scenario input 철산고 with its hanja. -/
def sampleThreeCharBatch : List Noun :=
  [{ hangul := some (chars "철산고"), hanja := some (chars "鐵山掌") }]

/-- The batch-pass output record for 철산고. -/
def sampleThreeCharOut : Noun :=
  { hangul := some (chars "철산고"), hanja := some (chars "鐵山掌"),
    english := some [], ambiguous := some false }

/-- C3 witness — the scenario record 철산고 (three characters) comes out with
ambiguous = false, even with an oracle and cache that call everything a common
found word. -/
theorem ambiguity_three_plus_not_ambiguous_witness :
    sampleThreeCharOut
      ∈ run_ambiguity_detection_on_list (fun _ => true) (fun _ => ⟨true, true⟩)
          [(chars "철산고", ⟨true, true⟩)] sampleThreeCharBatch
    ∧ sampleThreeCharOut.ambiguous = some false := by
  have hmem : sampleThreeCharOut
      ∈ run_ambiguity_detection_on_list (fun _ => true) (fun _ => ⟨true, true⟩)
          [(chars "철산고", ⟨true, true⟩)] sampleThreeCharBatch := by decide
  refine ⟨hmem, ?_⟩
  exact (ambiguity_three_plus_not_ambiguous (fun _ => true) (fun _ => false)
      (fun _ => ⟨true, true⟩) (fun _ => ⟨false, false⟩)
      [(chars "철산고", ⟨true, true⟩)] [] sampleThreeCharBatch).1 _ hmem (by decide)

/-! ## Frequency & Ranking Pass: frequency_calculation.py -/

/-- Whitespace-run collapsing, modelling re.sub of one-or-more whitespace with a
single space.  The fuel starts at the string length and never runs out because
every step consumes at least one character. -/
def normalizeWsAux : Nat → Str → Str
  | _, [] => []
  | 0, s => s
  | fuel + 1, c :: rest =>
    if isSpace c then ' ' :: normalizeWsAux fuel (rest.dropWhile isSpace)
    else c :: normalizeWsAux fuel rest

/-- The whitespace normalization applied to the corpus before counting. -/
def normalizeWs (s : Str) : Str := normalizeWsAux s.length s

/-- Left-to-right non-overlapping literal occurrence counting for a non-empty
pattern (re.findall with an escaped pattern); fuel as in normalizeWsAux. -/
def countOccAux (pat : Str) : Nat → Str → Nat
  | _, [] => 0
  | 0, _ => 0
  | fuel + 1, c :: rest =>
    if pat.isPrefixOf (c :: rest) then
      1 + countOccAux pat fuel (List.drop (pat.length - 1) rest)
    else countOccAux pat fuel rest

/-- Number of non-overlapping literal occurrences of pat in s; the empty pattern
matches at every position including the end, as re.findall does. -/
def countOcc (pat s : Str) : Nat :=
  if pat.isEmpty then s.length + 1 else countOccAux pat s.length s

/-- frequency_calculation.calculate_frequencies.  noun['hangul'] is a direct key
access, so a record without hangul raises; the exception path is modelled as none. -/
def calculate_frequencies (noun_list : List Noun) (combined_text : Str) :
    Option (List Noun) :=
  match noun_list with
  | [] => some []
  | n :: rest =>
    match n.hangul with
    | none => none
    | some h =>
      match calculate_frequencies rest combined_text with
      | none => none
      | some rest' =>
        some ({ n with
            frequency := some (match n.frequency with
              | some f => f + (countOcc h (normalizeWs combined_text) : Int)
              | none => (countOcc h (normalizeWs combined_text) : Int)),
            ambiguous := some (n.ambiguous.getD false) } :: rest')

/-- C8 — Frequency accumulation: on records that all carry hangul,
calculate_frequencies succeeds and sets each record's frequency to its prior
frequency (or zero when the field was absent, in which case the new count stands
alone) plus the number of non-overlapping literal occurrences of its hangul in
the whitespace-normalized corpus; the count is added, never reset.  The
ambiguous field is defaulted to false when absent. -/
theorem calculate_frequencies_accumulates (noun_list : List Noun) (combined_text : Str)
    (h : ∀ n ∈ noun_list, n.hangul ≠ none) :
    calculate_frequencies noun_list combined_text
      = some (noun_list.map (fun n =>
          { n with
            frequency := some (n.frequency.getD 0
              + (countOcc (n.hangul.getD []) (normalizeWs combined_text) : Int)),
            ambiguous := some (n.ambiguous.getD false) })) := by
  induction noun_list with
  | nil => rfl
  | cons n rest ih =>
    have hn := h n (List.mem_cons_self n rest)
    rw [calculate_frequencies]
    match hh : n.hangul with
    | none => exact absurd hh hn
    | some hg =>
      rw [ih (fun m hm => h m (List.mem_cons_of_mem n hm))]
      simp only [List.map_cons, Option.some_inj, List.cons.injEq, and_true]
      match hf : n.frequency with
      | none => simp [hh, hf]
      | some f => simp [hh, hf]

/-- The frequency-accumulation sample: prior frequency 5 and three occurrences of
천마 in the corpus. -/
def sampleFreqRecord : Noun := { hangul := some (chars "천마"), frequency := some 5 }

/-- C8 witness — prior frequency 5 plus three new occurrences yields 8, not 3. -/
theorem calculate_frequencies_accumulates_witness :
    (∀ n ∈ [sampleFreqRecord], n.hangul ≠ none)
    ∧ calculate_frequencies [sampleFreqRecord] (chars "천마를 천마가  천마")
        = some [{ hangul := some (chars "천마"), frequency := some 8,
                  ambiguous := some false }] := by
  refine ⟨by decide, ?_⟩
  exact (calculate_frequencies_accumulates [sampleFreqRecord]
      (chars "천마를 천마가  천마") (by decide)).trans (by decide)

/-- The composite Python sort key of sort_nouns: ambiguity (False first), negated
hangul length, negated frequency. -/
def sort_key (n : Noun) : Int × Int × Int :=
  (if n.ambiguous.getD false then 1 else 0,
   -((n.hangul.getD []).length : Int),
   -(n.frequency.getD 0))

/-- Lexicographic order on integer triples, as Python compares key tuples. -/
def tripleLe (x y : Int × Int × Int) : Bool :=
  decide (x.1 < y.1 ∨ (x.1 = y.1
    ∧ (x.2.1 < y.2.1 ∨ (x.2.1 = y.2.1 ∧ x.2.2 ≤ y.2.2))))

/-- The comparator sort_nouns sorts by. -/
def nounLe (a b : Noun) : Bool := tripleLe (sort_key a) (sort_key b)

/-- frequency_calculation.sort_nouns: backfill the ambiguous field on every record,
then stable-sort by the composite key.  The key reads noun['hangul'] directly, so a
record without hangul raises; the exception path is modelled as none.  (The first
sorted call of the source is discarded and the list is re-sorted with sort_key,
which is what the model performs.) -/
def sort_nouns (noun_list : List Noun) : Option (List Noun) :=
  if noun_list.all (fun n => n.hangul.isSome) then
    some (List.mergeSort
      (noun_list.map (fun n => ({ n with ambiguous := some (n.ambiguous.getD false) } : Noun)))
      nounLe)
  else none

theorem tripleLe_trans (x y z : Int × Int × Int) :
    tripleLe x y = true → tripleLe y z = true → tripleLe x z = true := by
  simp only [tripleLe, decide_eq_true_eq]
  omega

theorem tripleLe_total (x y : Int × Int × Int) :
    (tripleLe x y || tripleLe y x) = true := by
  simp only [tripleLe, Bool.or_eq_true, decide_eq_true_eq]
  omega

/-- C9 — Ranking order: sort_nouns returns a permutation of its input (with the
ambiguous field backfilled to false where absent, as the source does in place)
that is sorted by the composite key: an ambiguous record never precedes an
unambiguous one; within equal ambiguity, longer hangul comes first; within equal
ambiguity and length, higher frequency comes first. -/
theorem sort_nouns_spec (noun_list : List Noun)
    (h : ∀ n ∈ noun_list, n.hangul.isSome) :
    ∃ out, sort_nouns noun_list = some out
      ∧ out.Perm (noun_list.map (fun n => ({ n with ambiguous := some (n.ambiguous.getD false) } : Noun)))
      ∧ List.Pairwise (fun a b =>
          (a.ambiguous.getD false = true → b.ambiguous.getD false = true)
          ∧ (a.ambiguous.getD false = b.ambiguous.getD false →
              (b.hangul.getD []).length ≤ (a.hangul.getD []).length)
          ∧ (a.ambiguous.getD false = b.ambiguous.getD false →
              (a.hangul.getD []).length = (b.hangul.getD []).length →
              b.frequency.getD 0 ≤ a.frequency.getD 0)) out := by
  have hall : noun_list.all (fun n => n.hangul.isSome) = true :=
    List.all_eq_true.mpr (fun n hn => h n hn)
  refine ⟨(noun_list.map
      (fun n => ({ n with ambiguous := some (n.ambiguous.getD false) } : Noun))).mergeSort nounLe,
    ?_, List.mergeSort_perm _ _, ?_⟩
  · rw [sort_nouns, if_pos hall]
  have hsorted := @List.sorted_mergeSort Noun nounLe
    (fun a b c => tripleLe_trans (sort_key a) (sort_key b) (sort_key c))
    (fun a b => tripleLe_total (sort_key a) (sort_key b))
    (noun_list.map (fun n => ({ n with ambiguous := some (n.ambiguous.getD false) } : Noun)))
  refine hsorted.imp ?_
  intro a b hle
  simp only [nounLe, tripleLe, sort_key, decide_eq_true_eq] at hle
  refine ⟨?_, ?_, ?_⟩
  · intro ha
    by_cases hb : b.ambiguous.getD false
    · exact hb
    · simp [ha, hb] at hle
  · intro hab
    rw [hab] at hle
    rcases Bool.eq_false_or_eq_true (b.ambiguous.getD false) with hb | hb <;>
      simp [hb] at hle <;> omega
  · intro hab hlen
    rw [hab] at hle
    rcases Bool.eq_false_or_eq_true (b.ambiguous.getD false) with hb | hb <;>
      simp [hb] at hle <;> omega

/-- The ranking sample of the spec: two unambiguous four-character records with
frequencies 10 and 20, and an ambiguous two-character record with frequency 100. -/
def sampleRankBatch : List Noun :=
  [{ hangul := some (chars "가나다라"), frequency := some 10, ambiguous := some false },
   { hangul := some (chars "마바사아"), frequency := some 20, ambiguous := some false },
   { hangul := some (chars "자차"), frequency := some 100, ambiguous := some true }]

/-- C9 witness — the ranking theorem applied to the three-record sample. -/
theorem sort_nouns_spec_witness :
    (∀ n ∈ sampleRankBatch, n.hangul.isSome)
    ∧ ∃ out, sort_nouns sampleRankBatch = some out
      ∧ out.Perm (sampleRankBatch.map
          (fun n => ({ n with ambiguous := some (n.ambiguous.getD false) } : Noun)))
      ∧ List.Pairwise (fun a b =>
          (a.ambiguous.getD false = true → b.ambiguous.getD false = true)
          ∧ (a.ambiguous.getD false = b.ambiguous.getD false →
              (b.hangul.getD []).length ≤ (a.hangul.getD []).length)
          ∧ (a.ambiguous.getD false = b.ambiguous.getD false →
              (a.hangul.getD []).length = (b.hangul.getD []).length →
              b.frequency.getD 0 ≤ a.frequency.getD 0)) out :=
  ⟨by decide, sort_nouns_spec sampleRankBatch (by decide)⟩

end GlossaryMaker
